import Mathlib

/-!
Shallow embedding of the hand-shape evaluation engine from
src/mahjong-engine.js (class MahjongEngine), together with proofs about it.

Tile kinds are the 34 indices 0..33 in the engine's canonical order:
0..8 = 1m..9m, 9..17 = 1p..9p, 18..26 = 1s..9s, 27..33 = 1z..7z.
A hand count is a map from tile kind to multiplicity; JavaScript count
objects (kind -> positive count, absent keys read as 0) are modelled as
total functions `Fin 34 → Nat`, and iteration over object keys follows the
canonical tile order used by the engine's TILES table.
-/

set_option maxHeartbeats 1000000

namespace MahjongEngine

abbrev TileKind := Fin 34

abbrev HandCount := TileKind → Nat

/-- Read a count at a raw index; indices outside 0..33 read as 0
(an absent key in the JavaScript count object). -/
def get (c : HandCount) (i : Nat) : Nat :=
  if h : i < 34 then c ⟨i, h⟩ else 0

/-- Total number of tiles in a count
(`Object.values(tileCount).reduce((sum, count) => sum + count, 0)`). -/
def total (c : HandCount) : Nat := ∑ t : Fin 34, c t

/-- `getTileCount(hand)`: kind-to-multiplicity map of a tile list. -/
def getTileCount (hand : List TileKind) : HandCount :=
  fun t => hand.count t

/-- Add one copy of a tile kind (`testCount[testTile] = (testCount[testTile] || 0) + 1`). -/
def addTile (c : HandCount) (t : TileKind) : HandCount :=
  fun s => if s = t then c s + 1 else c s

/-- Remove a reserved pair (`tempCount[pairTile] -= 2`). -/
def decPair (c : HandCount) (t : TileKind) : HandCount :=
  fun s => if s = t then c s - 2 else c s

/-- Remove a triplet at raw index `i` (`newCount[tile] -= 3`). -/
def decTriplet (c : HandCount) (i : Nat) : HandCount :=
  fun s => if s.val = i then c s - 3 else c s

/-- Remove one tile at raw index `i` (`newCount[tile] -= 1`). -/
def sub1 (c : HandCount) (i : Nat) : HandCount :=
  fun s => if s.val = i then c s - 1 else c s

/-- Remove a run `i, i+1, i+2` (three single decrements). -/
def decRun (c : HandCount) (i : Nat) : HandCount :=
  sub1 (sub1 (sub1 c i) (i + 1)) (i + 2)

/-- Scan for the first index at or after `k` with a positive count. -/
def firstIdxAux (c : HandCount) : Nat → Nat → Option Nat
  | 0, _ => none
  | fuel + 1, k => if 0 < get c k then some k else firstIdxAux c fuel (k + 1)

/-- First tile kind present in the count, in canonical order
(`Object.keys(tileCount).filter(tile => tileCount[tile] > 0)[0]`). -/
def firstIdx (c : HandCount) : Option Nat := firstIdxAux c 34 0

/-- `isSuitedTile`: man, pin and sou occupy indices 0..26. -/
def isSuitedIdx (i : Nat) : Bool := i < 27

/-- A run may start at a suited tile of rank at most 7 (`num <= 7`). -/
def runStart (i : Nat) : Bool := i < 27 && i % 9 ≤ 6

/-- `canFormMelds(tileCount, melds)`, with explicit recursion fuel.
Every recursive call removes three tiles, so fuel equal to the total
tile count is always sufficient. -/
def canFormMeldsF : Nat → HandCount → Nat → Bool
  | 0, c, melds =>
    match firstIdx c with
    | none => melds == 4
    | some _ => false
  | fuel + 1, c, melds =>
    match firstIdx c with
    | none => melds == 4
    | some i =>
      if 4 ≤ melds then false
      else
        (decide (3 ≤ get c i) && canFormMeldsF fuel (decTriplet c i) (melds + 1))
          || (runStart i && decide (1 ≤ get c (i + 1)) && decide (1 ≤ get c (i + 2))
                && canFormMeldsF fuel (decRun c i) (melds + 1))

/-- `canFormMelds(tileCount, melds)`. -/
def canFormMelds (c : HandCount) (melds : Nat) : Bool :=
  canFormMeldsF (total c) c melds

/-- Number of distinct kinds present (`Object.keys(tileCount).length` for a
count object whose entries are all positive). -/
def supportSize (c : HandCount) : Nat :=
  ((List.finRange 34).filter (fun t => c t != 0)).length

/-- The 13 terminal/honor kinds, in the engine's order:
1m, 9m, 1p, 9p, 1s, 9s, 1z..7z. -/
def terminalKinds : List TileKind :=
  [0, 8, 9, 17, 18, 26, 27, 28, 29, 30, 31, 32, 33]

/-- The loop body of `isKokushi`: walks the terminal list tracking
`pairFound` and `terminalCount`, with the early `return false` on a second
pair or on a count of 3 or more. -/
def kokushiLoop (c : HandCount) : List TileKind → Bool → Nat → Bool
  | [], pairFound, terminalCount => terminalCount == 13 && pairFound
  | t :: rest, pairFound, terminalCount =>
    if c t = 0 then kokushiLoop c rest pairFound terminalCount
    else if c t = 2 then
      if pairFound then false else kokushiLoop c rest true (terminalCount + 1)
    else if c t = 1 then kokushiLoop c rest pairFound (terminalCount + 1)
    else false

/-- `isKokushi(tileCount)`. -/
def isKokushi (c : HandCount) : Bool := kokushiLoop c terminalKinds false 0

/-- `isCompleteHand(tileCount)`: 14 tiles forming seven pairs, kokushi, or
one pair plus four melds. -/
def isCompleteHand (c : HandCount) : Bool :=
  if total c ≠ 14 then false
  else if supportSize c == 7 && (List.finRange 34).all (fun t => c t == 0 || c t == 2) then
    true
  else if isKokushi c then true
  else (List.finRange 34).any (fun t => decide (2 ≤ c t) && canFormMelds (decPair c t) 0)

/-- `findWaits(tileCount)`: the kinds among the 34 whose addition yields a
complete hand, in canonical order. -/
def findWaits (c : HandCount) : List TileKind :=
  (List.finRange 34).filter (fun t => isCompleteHand (addTile c t))

/-- `calculateMeldsAndPairs(tileCount, melds, pairs)` with explicit fuel;
each recursive call removes at least one tile, so fuel equal to the total
tile count is sufficient. Returns the minimum leaf value
`max(0, 4 - melds) + max(0, 1 - pairs)` plus one penalty per skipped tile,
over the choices: form a triplet, form a run, skip the first tile. -/
def cmpF : Nat → HandCount → Nat → Nat → Nat
  | 0, c, melds, pairs =>
    match firstIdx c with
    | none => 4 - melds + (1 - pairs)
    | some _ => 8
  | fuel + 1, c, melds, pairs =>
    match firstIdx c with
    | none => 4 - melds + (1 - pairs)
    | some i =>
      let m1 := if 3 ≤ get c i then min 8 (cmpF fuel (decTriplet c i) (melds + 1) pairs) else 8
      let m2 :=
        if runStart i ∧ 1 ≤ get c (i + 1) ∧ 1 ≤ get c (i + 2) then
          min m1 (cmpF fuel (decRun c i) (melds + 1) pairs)
        else m1
      min m2 (cmpF fuel (sub1 c i) melds pairs + 1)

/-- `calculateMeldsAndPairs(tileCount, melds, pairs).shanten`. -/
def calculateMeldsAndPairs (c : HandCount) (melds pairs : Nat) : Nat :=
  cmpF (total c) c melds pairs

/-- `calculateStandardShanten(tileCount)`: minimum over the no-pair search
and one search per candidate pair kind, starting from 8. -/
def calculateStandardShanten (c : HandCount) : Nat :=
  (List.finRange 34).foldl
    (fun acc t => if 2 ≤ c t then min acc (calculateMeldsAndPairs (decPair c t) 0 1) else acc)
    (min 8 (calculateMeldsAndPairs c 0 0))

/-- `calculateKokushiShanten(tileCount)`. -/
def calculateKokushiShanten (c : HandCount) : Int :=
  let different : Int := ((terminalKinds.filter (fun t => 1 ≤ c t)).length : Int)
  let pair : Bool := terminalKinds.any (fun t => 2 ≤ c t)
  let s : Int := 13 - different
  let s2 : Int := if pair then s else s + 1
  max 0 (s2 - 1)

/-- The loop body of `calculateChitoitsuShanten`: accumulates pair and
single counts, with the early `return 99` on any kind of count 4 or more. -/
def chitoiLoop (c : HandCount) : List TileKind → Nat → Nat → Int
  | [], pairs, singles =>
    max 0 (6 - (pairs : Int) + max 0 (7 - (pairs : Int) - (singles : Int)))
  | t :: rest, pairs, singles =>
    if 4 ≤ c t then 99
    else
      chitoiLoop c rest (if 2 ≤ c t then pairs + 1 else pairs)
        (if c t = 1 then singles + 1 else singles)

/-- `calculateChitoitsuShanten(tileCount)`. -/
def calculateChitoitsuShanten (c : HandCount) : Int :=
  chitoiLoop c (List.finRange 34) 0 0

/-- `calculateShanten(tileCount)`: minimum of the three archetype
distances. -/
def calculateShanten (c : HandCount) : Int :=
  min (min (calculateKokushiShanten c) (calculateChitoitsuShanten c))
    ((calculateStandardShanten c : Int))

/-- `calculateShanten(hand)` on a tile list (the array branch of the
JavaScript dispatch). -/
def calculateShantenOfHand (hand : List TileKind) : Int :=
  calculateShanten (getTileCount hand)

/-- The record returned by `calculateUkeire`. -/
structure UkeireResult where
  total : Nat
  tiles : TileKind → Nat
  waits : List TileKind

/-- `countAvailableTiles(tile, hand)`: `Math.max(0, 4 - usedInHand)`. -/
def countAvailableTiles (t : TileKind) (hand : List TileKind) : Nat :=
  4 - hand.count t

/-- `calculateTileImprovement(tileCount, testTile)`: shanten change caused
by adding one copy of the test tile. -/
def calculateTileImprovement (c : HandCount) (t : TileKind) : Int :=
  calculateShanten c - calculateShanten (addTile c t)

/-- One iteration of the `calculateUkeire` tile loop. -/
def ukeireStep (hand : List TileKind) (c : HandCount) (r : UkeireResult) (t : TileKind) :
    UkeireResult :=
  if 0 < calculateTileImprovement c t then
    if 0 < countAvailableTiles t hand then
      { total := r.total + countAvailableTiles t hand
        tiles := fun s => if s = t then countAvailableTiles t hand else r.tiles s
        waits := r.waits ++ [t] }
    else r
  else r

/-- `calculateUkeire(hand)`: scans the 34 kinds in canonical order
(suits m, p, s then honors). -/
def calculateUkeire (hand : List TileKind) : UkeireResult :=
  (List.finRange 34).foldl (ukeireStep hand (getTileCount hand)) ⟨0, fun _ => 0, []⟩

/-! ### Melds and the specification of a standard decomposition

A meld is a triplet of one kind or a run of three consecutive ranks within
one suit, exactly as the recursive search of `canFormMelds` consumes them. -/

inductive Meld where
  | triplet (i : Nat) : Meld
  | run (i : Nat) : Meld
deriving DecidableEq

/-- A triplet names one of the 34 kinds; a run starts at a suited tile of
rank at most 7, so it never leaves its suit block and never uses honors. -/
def Meld.valid : Meld → Prop
  | Meld.triplet i => i < 34
  | Meld.run i => i < 27 ∧ i % 9 ≤ 6

/-- How many copies of kind `t` a meld consumes. -/
def Meld.countAt : Meld → TileKind → Nat
  | Meld.triplet i, t => if t.val = i then 3 else 0
  | Meld.run i, t => if t.val = i ∨ t.val = i + 1 ∨ t.val = i + 2 then 1 else 0

/-- Copies of kind `t` consumed by a list of melds. -/
def meldsCount (ms : List Meld) (t : TileKind) : Nat :=
  (ms.map (fun m => m.countAt t)).sum

/-- The count partitions into exactly `j` valid melds. -/
def CanMelds (c : HandCount) (j : Nat) : Prop :=
  ∃ ms : List Meld, ms.length = j ∧ (∀ m ∈ ms, m.valid) ∧ ∀ t, c t = meldsCount ms t

/-- A pair of kind `p`, as a count. -/
def pairAt (p : TileKind) : HandCount := fun t => if t = p then 2 else 0

/-- The standard archetype: one pair plus four valid melds. -/
def StandardShape (c : HandCount) : Prop :=
  ∃ (p : TileKind) (ms : List Meld), ms.length = 4 ∧ (∀ m ∈ ms, m.valid) ∧
    ∀ t, c t = pairAt p t + meldsCount ms t

/-- The seven-pairs archetype: exactly 7 distinct kinds, each with count
exactly 2. -/
def SevenPairsShape (c : HandCount) : Prop :=
  ∃ l : List TileKind, l.Nodup ∧ l.length = 7 ∧ ∀ t, c t = if t ∈ l then 2 else 0

/-- The thirteen-orphans archetype: each of the 13 terminal/honor kinds
appears at least once, exactly one of them appears exactly twice, and no
kind outside that set appears. -/
def ThirteenOrphansShape (c : HandCount) : Prop :=
  (∀ t ∈ terminalKinds, 1 ≤ c t) ∧
    (terminalKinds.filter (fun t => c t = 2)).length = 1 ∧
    ∀ t : TileKind, t ∉ terminalKinds → c t = 0

/-- The seven-pairs distance as a function of the pair and single counts. -/
def chitoiFormula (pairs singles : Nat) : Int :=
  max 0 (6 - (pairs : Int) + max 0 (7 - (pairs : Int) - (singles : Int)))

/-- Membership test of the `calculateUkeire` tile loop: the added kind
strictly lowers the shanten and at least one copy is still obtainable. -/
def ukeireGood (hand : List TileKind) (c : HandCount) (t : TileKind) : Bool :=
  decide (0 < calculateTileImprovement c t) && decide (0 < countAvailableTiles t hand)

/-- The thirteen-orphans distance exactly as claim C6 words it: 13 minus
the number of distinct terminal/honor kinds present, minus 1 exactly when
no terminal/honor pair exists, clamped at 0. -/
def kokushiClaimFormula (c : HandCount) : Int :=
  max 0 (13 - ((terminalKinds.filter (fun t => 1 ≤ c t)).length : Int) -
    (if terminalKinds.any (fun t => 2 ≤ c t) then 0 else 1))

/-- The thirteen-orphans distance with the pair adjustment the code
actually applies: subtract 1 exactly when a terminal/honor pair is
present. -/
def kokushiAmendedFormula (c : HandCount) : Int :=
  max 0 (13 - ((terminalKinds.filter (fun t => 1 ≤ c t)).length : Int) -
    (if terminalKinds.any (fun t => 2 ≤ c t) then 1 else 0))

/-- The seven-pairs distance as claim C5 words it: `pairs` is the number
of kinds with count at least 2 and `singles` the number of kinds with
count exactly 1, combined by `max 0 (6 - pairs + max 0 (7 - pairs - singles))`. -/
def chitoiClaimFormula (c : HandCount) : Int :=
  chitoiFormula ((List.finRange 34).filter (fun t => 2 ≤ c t)).length
    ((List.finRange 34).filter (fun t => c t = 1)).length

/-! ### Concrete fixtures (tile indices: 0..8 man, 9..17 pin, 18..26 sou,
27..33 honors) -/

/-- 1m. -/
def m1 : TileKind := 0

/-- 1z (east wind). -/
def z1 : TileKind := 27

/-- 5z (white dragon). -/
def z5 : TileKind := 31

/-- The specification scenario hand 1m2m3m4m5m6m 7p8p9p 2s3s4s 5z. -/
def exHand13 : List TileKind := [0, 1, 2, 3, 4, 5, 15, 16, 17, 19, 20, 21, 31]

/-- Seven distinct pairs: 1m1m 3p3p 5s5s 1z1z 2z2z 3z3z 4z4z. -/
def sevenPairs14 : List TileKind := [0, 0, 11, 11, 22, 22, 27, 27, 28, 28, 29, 29, 30, 30]

/-- Four honor triplets and a lone 5z: 1z1z1z 2z2z2z 3z3z3z 4z4z4z 5z. -/
def w7hand : List TileKind := [27, 27, 27, 28, 28, 28, 29, 29, 29, 30, 30, 30, 31]

/-- Four copies of 1z plus the nine man tiles: 1z1z1z1z 1m..9m. -/
def hand4z : List TileKind := [27, 27, 27, 27, 0, 1, 2, 3, 4, 5, 6, 7, 8]

/-- The empty count. -/
def emptyCount : HandCount := fun _ => 0

/-- A malformed count holding five copies of 1m. -/
def quadCount : HandCount := fun t => if t = m1 then 5 else 0

/-- A count holding exactly one pair of 1z. -/
def kokushiPairOnly : HandCount := fun t => if t = z1 then 2 else 0

/-! ### Basic lemmas about counts, totals and the first-index scan -/

lemma get_val (c : HandCount) (t : TileKind) : get c t.val = c t := by
  unfold get
  rw [dif_pos t.isLt]

lemma get_eq_of_lt (c : HandCount) {i : Nat} (h : i < 34) : get c i = c ⟨i, h⟩ := by
  unfold get
  rw [dif_pos h]

lemma get_of_ge (c : HandCount) {i : Nat} (h : 34 ≤ i) : get c i = 0 := by
  unfold get
  rw [dif_neg (by omega)]

lemma sub_point_update (c : HandCount) (u : TileKind) (d : Nat) :
    (fun s => if s = u then c s - d else c s) = Function.update c u (c u - d) := by
  funext s
  by_cases h : s = u
  · subst h; simp
  · simp [h, Function.update_noteq h]

lemma add_point_update (c : HandCount) (u : TileKind) :
    addTile c u = Function.update c u (c u + 1) := by
  funext s
  by_cases h : s = u
  · subst h; simp [addTile]
  · simp [addTile, h, Function.update_noteq h]

lemma total_update (c : HandCount) (u : TileKind) (v : Nat) :
    total (Function.update c u v) = total c - c u + v := by
  unfold total
  rw [Finset.sum_update_of_mem (Finset.mem_univ u)]
  have h1 : ∑ t : Fin 34, c t = c u + ∑ x ∈ Finset.univ \ {u}, c x := by
    rw [← Finset.sum_update_of_mem (Finset.mem_univ u)]
    exact Finset.sum_congr rfl fun x _ => by
      by_cases h : x = u
      · subst h; simp
      · simp [Function.update_noteq h]
  have h2 : c u ≤ ∑ t : Fin 34, c t :=
    Finset.single_le_sum (fun i _ => Nat.zero_le (c i)) (Finset.mem_univ u)
  omega

lemma total_sub_point (c : HandCount) (u : TileKind) (d : Nat) (hd : d ≤ c u) :
    total (fun s => if s = u then c s - d else c s) = total c - d := by
  rw [sub_point_update, total_update]
  have : c u ≤ total c :=
    Finset.single_le_sum (fun i _ => Nat.zero_le (c i)) (Finset.mem_univ u)
  omega

lemma total_addTile (c : HandCount) (u : TileKind) :
    total (addTile c u) = total c + 1 := by
  rw [add_point_update, total_update]
  have : c u ≤ total c :=
    Finset.single_le_sum (fun i _ => Nat.zero_le (c i)) (Finset.mem_univ u)
  omega

lemma count_le_total (c : HandCount) (t : TileKind) : c t ≤ total c :=
  Finset.single_le_sum (fun i _ => Nat.zero_le (c i)) (Finset.mem_univ t)

lemma total_eq_zero (c : HandCount) (h : total c = 0) : ∀ t, c t = 0 := by
  intro t
  have := count_le_total c t
  omega

lemma total_of_all_zero (c : HandCount) (h : ∀ t, c t = 0) : total c = 0 := by
  unfold total
  exact Finset.sum_eq_zero fun t _ => h t

lemma decPair_sub_point (c : HandCount) (t : TileKind) :
    decPair c t = fun s => if s = t then c s - 2 else c s := rfl

lemma total_decPair (c : HandCount) (t : TileKind) (h : 2 ≤ c t) :
    total (decPair c t) = total c - 2 := by
  rw [decPair_sub_point]
  exact total_sub_point c t 2 h

lemma decTriplet_eq_point (c : HandCount) {i : Nat} (h : i < 34) :
    decTriplet c i = fun s => if s = (⟨i, h⟩ : TileKind) then c s - 3 else c s := by
  funext s
  unfold decTriplet
  by_cases hs : s = (⟨i, h⟩ : TileKind)
  · subst hs; simp
  · have hv : s.val ≠ i := fun hv => hs (Fin.ext hv)
    simp [hv, hs]

lemma sub1_eq_point (c : HandCount) {i : Nat} (h : i < 34) :
    sub1 c i = fun s => if s = (⟨i, h⟩ : TileKind) then c s - 1 else c s := by
  funext s
  unfold sub1
  by_cases hs : s = (⟨i, h⟩ : TileKind)
  · subst hs; simp
  · have hv : s.val ≠ i := fun hv => hs (Fin.ext hv)
    simp [hv, hs]

lemma total_decTriplet (c : HandCount) {i : Nat} (h34 : i < 34) (h3 : 3 ≤ get c i) :
    total (decTriplet c i) = total c - 3 := by
  rw [decTriplet_eq_point c h34]
  exact total_sub_point c ⟨i, h34⟩ 3 (by rwa [get_eq_of_lt c h34] at h3)

lemma total_sub1 (c : HandCount) {i : Nat} (h34 : i < 34) (h1 : 1 ≤ get c i) :
    total (sub1 c i) = total c - 1 := by
  rw [sub1_eq_point c h34]
  exact total_sub_point c ⟨i, h34⟩ 1 (by rwa [get_eq_of_lt c h34] at h1)

lemma get_sub1_ne (c : HandCount) {i j : Nat} (h : j ≠ i) : get (sub1 c i) j = get c j := by
  unfold get sub1
  by_cases hj : j < 34
  · simp [hj, h]
  · simp [hj]

lemma total_decRun (c : HandCount) {i : Nat} (h34 : i + 2 < 34)
    (h0 : 1 ≤ get c i) (h1 : 1 ≤ get c (i + 1)) (h2 : 1 ≤ get c (i + 2)) :
    total (decRun c i) = total c - 3 := by
  unfold decRun
  have e1 : total (sub1 c i) = total c - 1 := total_sub1 c (by omega) h0
  have g1 : get (sub1 c i) (i + 1) = get c (i + 1) := get_sub1_ne c (by omega)
  have e2 : total (sub1 (sub1 c i) (i + 1)) = total c - 2 := by
    rw [total_sub1 (sub1 c i) (by omega) (by omega : 1 ≤ get (sub1 c i) (i + 1)), e1]
    omega
  have g2 : get (sub1 (sub1 c i) (i + 1)) (i + 2) = get c (i + 2) := by
    rw [get_sub1_ne _ (by omega), get_sub1_ne _ (by omega)]
  rw [total_sub1 (sub1 (sub1 c i) (i + 1)) (by omega : i + 2 < 34) (by omega), e2]
  omega

lemma firstIdxAux_none_zero (c : HandCount) :
    ∀ fuel k, firstIdxAux c fuel k = none → ∀ j, k ≤ j → j < k + fuel → get c j = 0 := by
  intro fuel
  induction fuel with
  | zero => intro k _ j h1 h2; omega
  | succ n ih =>
    intro k hnone j h1 h2
    rw [firstIdxAux] at hnone
    by_cases hp : 0 < get c k
    · rw [if_pos hp] at hnone; exact absurd hnone (by simp)
    · rw [if_neg hp] at hnone
      rcases Nat.eq_or_lt_of_le h1 with he | hl
      · subst he; omega
      · exact ih (k + 1) hnone j hl (by omega)

lemma firstIdxAux_some_facts (c : HandCount) :
    ∀ fuel k i, firstIdxAux c fuel k = some i →
      k ≤ i ∧ 0 < get c i ∧ ∀ j, k ≤ j → j < i → get c j = 0 := by
  intro fuel
  induction fuel with
  | zero => intro k i h; exact absurd h (by simp [firstIdxAux])
  | succ n ih =>
    intro k i h
    rw [firstIdxAux] at h
    by_cases hp : 0 < get c k
    · rw [if_pos hp] at h
      have : k = i := by injection h
      subst this
      exact ⟨Nat.le_refl k, hp, fun j h1 h2 => by omega⟩
    · rw [if_neg hp] at h
      obtain ⟨h1, h2, h3⟩ := ih (k + 1) i h
      refine ⟨by omega, h2, fun j hj1 hj2 => ?_⟩
      rcases Nat.eq_or_lt_of_le hj1 with he | hl
      · subst he; omega
      · exact h3 j hl hj2

lemma firstIdx_some_facts (c : HandCount) {i : Nat} (h : firstIdx c = some i) :
    0 < get c i ∧ i < 34 ∧ ∀ j, j < i → get c j = 0 := by
  obtain ⟨_, h2, h3⟩ := firstIdxAux_some_facts c 34 0 i h
  refine ⟨h2, ?_, fun j hj => h3 j (Nat.zero_le j) hj⟩
  by_contra hge
  rw [get_of_ge c (by omega)] at h2
  omega

lemma firstIdx_none_zero (c : HandCount) (h : firstIdx c = none) : ∀ t : TileKind, c t = 0 := by
  intro t
  have := firstIdxAux_none_zero c 34 0 h t.val (Nat.zero_le _) (by have := t.isLt; omega)
  rwa [get_val] at this

lemma firstIdx_eq_none (c : HandCount) (h : ∀ t : TileKind, c t = 0) : firstIdx c = none := by
  cases hf : firstIdx c with
  | none => rfl
  | some i =>
    obtain ⟨hpos, h34, _⟩ := firstIdx_some_facts c hf
    rw [get_eq_of_lt c h34, h ⟨i, h34⟩] at hpos
    omega

lemma firstIdx_isSome_of_pos (c : HandCount) (t : TileKind) (h : 0 < c t) :
    ∃ i, firstIdx c = some i := by
  cases hf : firstIdx c with
  | none => exact absurd (firstIdx_none_zero c hf t) (by omega)
  | some i => exact ⟨i, rfl⟩

lemma meldsCount_nil (t : TileKind) : meldsCount [] t = 0 := rfl

lemma meldsCount_cons (m : Meld) (ms : List Meld) (t : TileKind) :
    meldsCount (m :: ms) t = m.countAt t + meldsCount ms t := by
  simp [meldsCount]

lemma meldsCount_perm {ms ms2 : List Meld} (h : ms.Perm ms2) (t : TileKind) :
    meldsCount ms t = meldsCount ms2 t :=
  List.Perm.sum_eq (List.Perm.map _ h)

lemma countAt_le_meldsCount {m : Meld} {ms : List Meld} (h : m ∈ ms) (t : TileKind) :
    m.countAt t ≤ meldsCount ms t := by
  induction ms with
  | nil => cases h
  | cons hd tl ih =>
    rw [meldsCount_cons]
    rcases List.mem_cons.mp h with he | hm
    · subst he; omega
    · have := ih hm; omega

lemma exists_mem_of_meldsCount_pos {ms : List Meld} {t : TileKind}
    (h : 0 < meldsCount ms t) : ∃ m ∈ ms, 0 < m.countAt t := by
  induction ms with
  | nil => simp [meldsCount_nil] at h
  | cons hd tl ih =>
    rw [meldsCount_cons] at h
    by_cases hp : 0 < hd.countAt t
    · exact ⟨hd, List.mem_cons_self hd tl, hp⟩
    · obtain ⟨m, hm, hmp⟩ := ih (by omega)
      exact ⟨m, List.mem_cons_of_mem hd hm, hmp⟩

/-! ### Rewriting lemmas for the fuelled searches -/

lemma canFormMeldsF_none {fuel : Nat} {c : HandCount} {melds : Nat}
    (hf : firstIdx c = none) : canFormMeldsF fuel c melds = (melds == 4) := by
  cases fuel <;> (rw [canFormMeldsF, hf])

lemma canFormMeldsF_zero_some {c : HandCount} {melds : Nat} {i : Nat}
    (hf : firstIdx c = some i) : canFormMeldsF 0 c melds = false := by
  rw [canFormMeldsF, hf]

lemma canFormMeldsF_succ_some {fuel : Nat} {c : HandCount} {melds : Nat} {i : Nat}
    (hf : firstIdx c = some i) :
    canFormMeldsF (fuel + 1) c melds =
      if 4 ≤ melds then false
      else
        (decide (3 ≤ get c i) && canFormMeldsF fuel (decTriplet c i) (melds + 1))
          || (runStart i && decide (1 ≤ get c (i + 1)) && decide (1 ≤ get c (i + 2))
                && canFormMeldsF fuel (decRun c i) (melds + 1)) := by
  rw [canFormMeldsF, hf]

lemma cmpF_none {fuel : Nat} {c : HandCount} {melds pairs : Nat}
    (hf : firstIdx c = none) : cmpF fuel c melds pairs = 4 - melds + (1 - pairs) := by
  cases fuel <;> (rw [cmpF, hf])

lemma cmpF_succ_some {fuel : Nat} {c : HandCount} {melds pairs : Nat} {i : Nat}
    (hf : firstIdx c = some i) :
    cmpF (fuel + 1) c melds pairs =
      min
        (if runStart i ∧ 1 ≤ get c (i + 1) ∧ 1 ≤ get c (i + 2) then
          min (if 3 ≤ get c i then min 8 (cmpF fuel (decTriplet c i) (melds + 1) pairs) else 8)
            (cmpF fuel (decRun c i) (melds + 1) pairs)
        else if 3 ≤ get c i then min 8 (cmpF fuel (decTriplet c i) (melds + 1) pairs) else 8)
        (cmpF fuel (sub1 c i) melds pairs + 1) := by
  rw [cmpF, hf]

/-! ### The first present kind is consumed by a triplet or by a run it starts -/

lemma decRun_apply (c : HandCount) (i : Nat) (t : TileKind) :
    decRun c i t = if t.val = i ∨ t.val = i + 1 ∨ t.val = i + 2 then c t - 1 else c t := by
  unfold decRun sub1
  by_cases h2 : t.val = i + 2
  · simp [h2, (by omega : ¬(i + 2 = i + 1)), (by omega : ¬(i + 2 = i))]
  · by_cases h1 : t.val = i + 1
    · simp [h1, h2, (by omega : ¬(i + 1 = i))]
    · by_cases h0 : t.val = i
      · simp [h0, h1, h2]
      · simp [h0, h1, h2]

lemma runStart_true {i : Nat} (h27 : i < 27) (h9 : i % 9 ≤ 6) : runStart i = true := by
  simp [runStart]
  omega

lemma runStart_bounds {i : Nat} (h : runStart i = true) : i < 27 ∧ i % 9 ≤ 6 := by
  simpa [runStart] using h

lemma decompose_step {c : HandCount} {j : Nat} {i : Nat}
    (hmel : CanMelds c (j + 1)) (hf : firstIdx c = some i) :
    (3 ≤ get c i ∧ CanMelds (decTriplet c i) j) ∨
      (runStart i = true ∧ 1 ≤ get c (i + 1) ∧ 1 ≤ get c (i + 2) ∧
        CanMelds (decRun c i) j) := by
  obtain ⟨ms, hlen, hval, hc⟩ := hmel
  obtain ⟨hpos, h34, hmin⟩ := firstIdx_some_facts c hf
  have hcti : 0 < c ⟨i, h34⟩ := by rwa [get_eq_of_lt c h34] at hpos
  have hmc : 0 < meldsCount ms ⟨i, h34⟩ := by rw [← hc]; exact hcti
  obtain ⟨m, hm, hmp⟩ := exists_mem_of_meldsCount_pos hmc
  have hperm : ms.Perm (m :: ms.erase m) := List.perm_cons_erase hm
  have hcrest : ∀ t, c t = m.countAt t + meldsCount (ms.erase m) t := by
    intro t
    rw [hc t, meldsCount_perm hperm t, meldsCount_cons]
  have hlenrest : (ms.erase m).length = j := by
    rw [List.length_erase_of_mem hm, hlen]
    omega
  have hvalrest : ∀ m2 ∈ ms.erase m, m2.valid :=
    fun m2 hm2 => hval m2 (List.mem_of_mem_erase hm2)
  cases m with
  | triplet k =>
    have hik : i = k := by
      by_contra hne
      simp [Meld.countAt, hne] at hmp
    subst hik
    left
    constructor
    · rw [get_eq_of_lt c h34]
      have := hcrest ⟨i, h34⟩
      simp [Meld.countAt] at this
      omega
    · refine ⟨ms.erase (Meld.triplet i), hlenrest, hvalrest, fun t => ?_⟩
      have hct := hcrest t
      unfold decTriplet
      by_cases ht : t.val = i
      · rw [if_pos ht]
        simp [Meld.countAt, ht] at hct
        omega
      · rw [if_neg ht]
        simp [Meld.countAt, ht] at hct
        omega
  | run k =>
    obtain ⟨hk27, hk9⟩ : k < 27 ∧ k % 9 ≤ 6 := hval _ hm
    have hmem : i = k ∨ i = k + 1 ∨ i = k + 2 := by
      by_contra hno
      push_neg at hno
      simp [Meld.countAt, hno.1, hno.2.1, hno.2.2] at hmp
    have hkpos : 0 < c ⟨k, by omega⟩ := by
      rw [hcrest ⟨k, by omega⟩]
      simp [Meld.countAt]
    have hik : i = k := by
      rcases hmem with h | h | h
      · exact h
      · exfalso
        have := hmin k (by omega)
        rw [get_eq_of_lt c (by omega : k < 34)] at this
        omega
      · exfalso
        have := hmin k (by omega)
        rw [get_eq_of_lt c (by omega : k < 34)] at this
        omega
    subst hik
    right
    have g1 : 1 ≤ get c (i + 1) := by
      rw [get_eq_of_lt c (by omega : i + 1 < 34), hcrest ⟨i + 1, by omega⟩]
      simp [Meld.countAt]
    have g2 : 1 ≤ get c (i + 2) := by
      rw [get_eq_of_lt c (by omega : i + 2 < 34), hcrest ⟨i + 2, by omega⟩]
      simp [Meld.countAt]
    refine ⟨runStart_true hk27 hk9, g1, g2,
      ms.erase (Meld.run i), hlenrest, hvalrest, fun t => ?_⟩
    have hct := hcrest t
    rw [decRun_apply]
    by_cases ht : t.val = i ∨ t.val = i + 1 ∨ t.val = i + 2
    · rw [if_pos ht]
      simp [Meld.countAt, ht] at hct
      omega
    · rw [if_neg ht]
      simp [Meld.countAt, ht] at hct
      omega

/-! ### Soundness and completeness of the meld search -/

lemma canMelds_nil_of_zero {c : HandCount} (hz : ∀ t, c t = 0) : CanMelds c 0 :=
  ⟨[], rfl, by simp, fun t => by rw [hz t, meldsCount_nil]⟩

lemma exists_pos_of_canMelds_succ {c : HandCount} {j : Nat} (h : CanMelds c (j + 1)) :
    ∃ t : TileKind, 0 < c t := by
  obtain ⟨ms, hlen, hval, hcnt⟩ := h
  cases ms with
  | nil => simp at hlen
  | cons m rest =>
    cases m with
    | triplet k =>
      have hk : k < 34 := hval _ (List.mem_cons_self _ _)
      refine ⟨⟨k, hk⟩, ?_⟩
      rw [hcnt ⟨k, hk⟩, meldsCount_cons]
      simp [Meld.countAt]
    | run k =>
      have hk27 : k < 27 ∧ k % 9 ≤ 6 := hval (Meld.run k) (List.mem_cons_self _ _)
      have hk : k < 34 := by omega
      refine ⟨⟨k, hk⟩, ?_⟩
      rw [hcnt ⟨k, hk⟩, meldsCount_cons]
      simp [Meld.countAt]

lemma canFormMeldsF_sound :
    ∀ fuel c melds, canFormMeldsF fuel c melds = true →
      melds ≤ 4 ∧ CanMelds c (4 - melds) := by
  intro fuel
  induction fuel with
  | zero =>
    intro c melds h
    cases hf : firstIdx c with
    | none =>
      rw [canFormMeldsF_none hf] at h
      have hm : melds = 4 := by simpa using h
      subst hm
      exact ⟨Nat.le_refl 4, canMelds_nil_of_zero (firstIdx_none_zero c hf)⟩
    | some i =>
      rw [canFormMeldsF_zero_some hf] at h
      cases h
  | succ fuel ih =>
    intro c melds h
    cases hf : firstIdx c with
    | none =>
      rw [canFormMeldsF_none hf] at h
      have hm : melds = 4 := by simpa using h
      subst hm
      exact ⟨Nat.le_refl 4, canMelds_nil_of_zero (firstIdx_none_zero c hf)⟩
    | some i =>
      obtain ⟨hpos, h34, _⟩ := firstIdx_some_facts c hf
      rw [canFormMeldsF_succ_some hf] at h
      by_cases hm4 : 4 ≤ melds
      · rw [if_pos hm4] at h; cases h
      · rw [if_neg hm4] at h
        simp only [Bool.or_eq_true, Bool.and_eq_true, decide_eq_true_eq] at h
        rcases h with ⟨h3, hrec⟩ | ⟨⟨⟨hrs, hg1⟩, hg2⟩, hrec⟩
        · obtain ⟨_, ms, hlen, hval, hcnt⟩ := ih _ _ hrec
          refine ⟨by omega, Meld.triplet i :: ms, ?_, ?_, fun t => ?_⟩
          · rw [List.length_cons, hlen]; omega
          · intro m hm
            rcases List.mem_cons.mp hm with he | hmem
            · subst he; exact h34
            · exact hval m hmem
          · rw [meldsCount_cons]
            have hct := hcnt t
            unfold decTriplet at hct
            by_cases ht : t.val = i
            · rw [if_pos ht] at hct
              have h3c : 3 ≤ c t := by
                have he : t = ⟨i, h34⟩ := Fin.ext ht
                rw [he]
                rwa [get_eq_of_lt c h34] at h3
              simp [Meld.countAt, ht]
              omega
            · rw [if_neg ht] at hct
              simp [Meld.countAt, ht]
              omega
        · obtain ⟨hi27, hi9⟩ := runStart_bounds hrs
          obtain ⟨_, ms, hlen, hval, hcnt⟩ := ih _ _ hrec
          refine ⟨by omega, Meld.run i :: ms, ?_, ?_, fun t => ?_⟩
          · rw [List.length_cons, hlen]; omega
          · intro m hm
            rcases List.mem_cons.mp hm with he | hmem
            · subst he; exact ⟨hi27, hi9⟩
            · exact hval m hmem
          · rw [meldsCount_cons]
            have hct := hcnt t
            rw [decRun_apply] at hct
            by_cases ht : t.val = i ∨ t.val = i + 1 ∨ t.val = i + 2
            · rw [if_pos ht] at hct
              have h1c : 1 ≤ c t := by
                rcases ht with h | h | h
                · have he : t = ⟨i, h34⟩ := Fin.ext h
                  rw [he]
                  have := get_eq_of_lt c h34
                  omega
                · have he : t = ⟨i + 1, by omega⟩ := Fin.ext h
                  rw [he]
                  have := get_eq_of_lt c (show i + 1 < 34 by omega)
                  omega
                · have he : t = ⟨i + 2, by omega⟩ := Fin.ext h
                  rw [he]
                  have := get_eq_of_lt c (show i + 2 < 34 by omega)
                  omega
              simp [Meld.countAt, ht]
              omega
            · rw [if_neg ht] at hct
              simp [Meld.countAt, ht]
              omega

lemma canFormMeldsF_complete :
    ∀ j fuel c melds, total c ≤ fuel → CanMelds c j → melds + j = 4 →
      canFormMeldsF fuel c melds = true := by
  intro j
  induction j with
  | zero =>
    intro fuel c melds htot hcm hmel
    obtain ⟨ms, hlen, _, hcnt⟩ := hcm
    have hms : ms = [] := List.length_eq_zero.mp hlen
    subst hms
    have hz : ∀ t, c t = 0 := fun t => by rw [hcnt t, meldsCount_nil]
    rw [canFormMeldsF_none (firstIdx_eq_none c hz)]
    simp
    omega
  | succ j ih =>
    intro fuel c melds htot hcm hmel
    obtain ⟨t0, ht0⟩ := exists_pos_of_canMelds_succ hcm
    obtain ⟨i, hf⟩ := firstIdx_isSome_of_pos c t0 ht0
    obtain ⟨hpos, h34, _⟩ := firstIdx_some_facts c hf
    have htotpos : 0 < total c := Nat.lt_of_lt_of_le ht0 (count_le_total c t0)
    cases fuel with
    | zero => omega
    | succ fuel =>
      rw [canFormMeldsF_succ_some hf, if_neg (by omega : ¬ 4 ≤ melds)]
      simp only [Bool.or_eq_true, Bool.and_eq_true, decide_eq_true_eq]
      rcases decompose_step hcm hf with ⟨h3, hrest⟩ | ⟨hrs, hg1, hg2, hrest⟩
      · left
        refine ⟨h3, ih fuel _ (melds + 1) ?_ hrest (by omega)⟩
        rw [total_decTriplet c h34 h3]
        omega
      · right
        obtain ⟨hi27, _⟩ := runStart_bounds hrs
        refine ⟨⟨⟨hrs, hg1⟩, hg2⟩, ih fuel _ (melds + 1) ?_ hrest (by omega)⟩
        rw [total_decRun c (by omega : i + 2 < 34) (by omega) hg1 hg2]
        omega

/-- If the count splits into `j` melds, the fuelled search of
`calculateMeldsAndPairs` reaches a leaf worth `4 - (melds + j) + (1 - pairs)`. -/
lemma cmpF_le_of_canMelds :
    ∀ j fuel c melds pairs, total c ≤ fuel → CanMelds c j →
      cmpF fuel c melds pairs ≤ 4 - (melds + j) + (1 - pairs) := by
  intro j
  induction j with
  | zero =>
    intro fuel c melds pairs htot hcm
    obtain ⟨ms, hlen, _, hcnt⟩ := hcm
    have hms : ms = [] := List.length_eq_zero.mp hlen
    subst hms
    have hz : ∀ t, c t = 0 := fun t => by rw [hcnt t, meldsCount_nil]
    rw [cmpF_none (firstIdx_eq_none c hz)]
    omega
  | succ j ih =>
    intro fuel c melds pairs htot hcm
    obtain ⟨t0, ht0⟩ := exists_pos_of_canMelds_succ hcm
    obtain ⟨i, hf⟩ := firstIdx_isSome_of_pos c t0 ht0
    obtain ⟨hpos, h34, _⟩ := firstIdx_some_facts c hf
    have htotpos : 0 < total c := Nat.lt_of_lt_of_le ht0 (count_le_total c t0)
    cases fuel with
    | zero => omega
    | succ fuel =>
      rw [cmpF_succ_some hf]
      rcases decompose_step hcm hf with ⟨h3, hrest⟩ | ⟨hrs, hg1, hg2, hrest⟩
      · have hrec := ih fuel (decTriplet c i) (melds + 1) pairs
          (by rw [total_decTriplet c h34 h3]; omega) hrest
        rw [if_pos h3]
        by_cases hrc : runStart i = true ∧ 1 ≤ get c (i + 1) ∧ 1 ≤ get c (i + 2)
        · rw [if_pos hrc]
          omega
        · rw [if_neg hrc]
          omega
      · obtain ⟨hi27, _⟩ := runStart_bounds hrs
        have hrec := ih fuel (decRun c i) (melds + 1) pairs
          (by rw [total_decRun c (by omega : i + 2 < 34) (by omega) hg1 hg2]; omega) hrest
        rw [if_pos ⟨hrs, hg1, hg2⟩]
        omega

/-! ### The pair loop and the three archetype checks -/

lemma canFormMelds_zero_iff (c : HandCount) :
    canFormMelds c 0 = true ↔ CanMelds c 4 := by
  constructor
  · intro h
    have := (canFormMeldsF_sound (total c) c 0 h).2
    simpa using this
  · intro h
    exact canFormMeldsF_complete 4 (total c) c 0 (Nat.le_refl _) h (by omega)

lemma standardAny_iff (c : HandCount) :
    ((List.finRange 34).any fun t => decide (2 ≤ c t) && canFormMelds (decPair c t) 0) = true
      ↔ StandardShape c := by
  rw [List.any_eq_true]
  constructor
  · rintro ⟨t, -, hbt⟩
    rw [Bool.and_eq_true, decide_eq_true_eq] at hbt
    obtain ⟨h2, hcfm⟩ := hbt
    obtain ⟨ms, hlen, hval, hcnt⟩ := (canFormMelds_zero_iff _).mp hcfm
    refine ⟨t, ms, hlen, hval, fun s => ?_⟩
    have hs2 := hcnt s
    unfold decPair at hs2
    unfold pairAt
    by_cases hs : s = t
    · subst hs
      rw [if_pos rfl] at hs2 ⊢
      omega
    · rw [if_neg hs] at hs2 ⊢
      omega
  · rintro ⟨t, ms, hlen, hval, hcnt⟩
    refine ⟨t, List.mem_finRange t, ?_⟩
    rw [Bool.and_eq_true, decide_eq_true_eq]
    have h2 : 2 ≤ c t := by
      have := hcnt t
      unfold pairAt at this
      rw [if_pos rfl] at this
      omega
    refine ⟨h2, (canFormMelds_zero_iff _).mpr ⟨ms, hlen, hval, fun s => ?_⟩⟩
    have hs2 := hcnt s
    unfold pairAt at hs2
    unfold decPair
    by_cases hs : s = t
    · subst hs
      rw [if_pos rfl] at hs2 ⊢
      omega
    · rw [if_neg hs] at hs2 ⊢
      omega

lemma sevenPairsCheck_iff (c : HandCount) :
    (supportSize c == 7 && (List.finRange 34).all fun t => c t == 0 || c t == 2) = true
      ↔ SevenPairsShape c := by
  rw [Bool.and_eq_true, List.all_eq_true]
  constructor
  · rintro ⟨h7, hall⟩
    have h7n : supportSize c = 7 := by simpa using h7
    have hallp : ∀ t : TileKind, c t = 0 ∨ c t = 2 := fun t => by
      have := hall t (List.mem_finRange t)
      simpa using this
    refine ⟨(List.finRange 34).filter (fun t => c t != 0), ?_, h7n, fun t => ?_⟩
    · exact List.Nodup.filter _ (List.nodup_finRange 34)
    · by_cases ht : t ∈ (List.finRange 34).filter (fun t => c t != 0)
      · rw [if_pos ht]
        have := (List.mem_filter.mp ht).2
        rcases hallp t with h | h
        · rw [h] at this; simp at this
        · exact h
      · rw [if_neg ht]
        by_contra hne
        exact ht (List.mem_filter.mpr ⟨List.mem_finRange t, by simpa using hne⟩)
  · rintro ⟨l, hnod, hlen, hcnt⟩
    constructor
    · have he : (List.finRange 34).filter (fun t => c t != 0) = (List.finRange 34).filter
          (fun t => decide (t ∈ l)) := by
        apply List.filter_congr
        intro t _
        rw [hcnt t]
        by_cases ht : t ∈ l
        · simp [ht]
        · simp [ht]
      have hperm : ((List.finRange 34).filter (fun t => decide (t ∈ l))).Perm l := by
        rw [List.perm_ext_iff_of_nodup (List.Nodup.filter _ (List.nodup_finRange 34)) hnod]
        intro t
        simp [List.mem_filter, List.mem_finRange]
      have : supportSize c = l.length := by
        unfold supportSize
        rw [he]
        exact hperm.length_eq
      rw [this, hlen]
      rfl
    · intro t _
      rw [hcnt t]
      by_cases ht : t ∈ l
      · simp [ht]
      · simp [ht]

lemma chitoiLoop_quad (c : HandCount) :
    ∀ (l : List TileKind) (p s : Nat) (t : TileKind), t ∈ l → 4 ≤ c t →
      chitoiLoop c l p s = 99 := by
  intro l
  induction l with
  | nil => intro p s t h; cases h
  | cons hd rest ih =>
    intro p s t ht h4
    rw [chitoiLoop]
    by_cases hq : 4 ≤ c hd
    · rw [if_pos hq]
    · rw [if_neg hq]
      rcases List.mem_cons.mp ht with he | hm
      · subst he; omega
      · exact ih _ _ t hm h4

lemma chitoiLoop_eq_formula (c : HandCount) :
    ∀ (l : List TileKind) (p s : Nat), (∀ t ∈ l, c t < 4) →
      chitoiLoop c l p s =
        chitoiFormula (p + (l.filter (fun t => 2 ≤ c t)).length)
          (s + (l.filter (fun t => c t = 1)).length) := by
  intro l
  induction l with
  | nil =>
    intro p s _
    simp [chitoiLoop, chitoiFormula]
  | cons t rest ih =>
    intro p s hlt
    have ht4 : c t < 4 := hlt t (List.mem_cons_self _ _)
    rw [chitoiLoop, if_neg (by omega : ¬ 4 ≤ c t),
      ih _ _ (fun x hx => hlt x (List.mem_cons_of_mem _ hx))]
    have e1 : (if 2 ≤ c t then p + 1 else p) + (rest.filter (fun x => 2 ≤ c x)).length =
        p + ((t :: rest).filter (fun x => 2 ≤ c x)).length := by
      rw [List.filter_cons]
      by_cases h2 : 2 ≤ c t
      · simp [h2]
        omega
      · simp [h2]
    have e2 : (if c t = 1 then s + 1 else s) + (rest.filter (fun x => c x = 1)).length =
        s + ((t :: rest).filter (fun x => c x = 1)).length := by
      rw [List.filter_cons]
      by_cases h1 : c t = 1
      · simp [h1]
        omega
      · simp [h1]
    rw [e1, e2]

lemma kokushiLoop_iff (c : HandCount) :
    ∀ (l : List TileKind) (pf : Bool) (tc : Nat),
      kokushiLoop c l pf tc = true ↔
        (∀ t ∈ l, c t ≤ 2) ∧ tc + (l.filter (fun t => 1 ≤ c t)).length = 13 ∧
          (l.filter (fun t => c t = 2)).length = (if pf then 0 else 1) := by
  intro l
  induction l with
  | nil =>
    intro pf tc
    cases pf <;> simp [kokushiLoop]
  | cons t rest ih =>
    intro pf tc
    rw [kokushiLoop]
    rw [List.filter_cons, List.filter_cons]
    simp only [List.mem_cons, forall_eq_or_imp]
    by_cases h0 : c t = 0
    · rw [if_pos h0, ih]
      simp [h0]
    · rw [if_neg h0]
      by_cases h2 : c t = 2
      · rw [if_pos h2]
        cases pf with
        | true =>
          simp only [if_pos rfl]
          constructor
          · intro h; cases h
          · rintro ⟨-, -, hlen⟩
            simp [h2] at hlen
        | false =>
          rw [if_neg (by simp)]
          rw [ih]
          simp [h2]
          intro _ _
          omega
      · rw [if_neg h2]
        by_cases h1 : c t = 1
        · rw [if_pos h1, ih]
          simp [h1]
          intro _ _
          omega
        · rw [if_neg h1]
          constructor
          · intro h; cases h
          · rintro ⟨⟨hle, -⟩, -, -⟩
            omega

/-! ### Kokushi check versus the thirteen-orphans archetype -/

lemma length_le_sum_map (c : HandCount) :
    ∀ l : List TileKind, (∀ t ∈ l, 1 ≤ c t) → l.length ≤ (l.map c).sum := by
  intro l
  induction l with
  | nil => simp
  | cons h rest ih =>
    intro h1
    have := h1 h (List.mem_cons_self _ _)
    have := ih (fun t ht => h1 t (List.mem_cons_of_mem _ ht))
    simp only [List.map_cons, List.sum_cons, List.length_cons]
    omega

lemma sum_map_eq_length_add_twos (c : HandCount) :
    ∀ l : List TileKind, (∀ t ∈ l, 1 ≤ c t ∧ c t ≤ 2) →
      (l.map c).sum = l.length + (l.filter (fun t => c t = 2)).length := by
  intro l
  induction l with
  | nil => simp
  | cons h rest ih =>
    intro h1
    obtain ⟨hge, hle⟩ := h1 h (List.mem_cons_self _ _)
    rw [List.map_cons, List.sum_cons, List.filter_cons,
      ih (fun t ht => h1 t (List.mem_cons_of_mem _ ht))]
    by_cases h2 : c h = 2
    · simp [h2]
      omega
    · simp [h2]
      omega

lemma sum_map_ge_two (c : HandCount) (l : List TileKind) (a b : TileKind)
    (ha : a ∈ l) (hb : b ∈ l) (hne : a ≠ b) (h1 : ∀ t ∈ l, 1 ≤ c t) :
    c a + c b + (l.length - 2) ≤ (l.map c).sum := by
  have hp1 : l.Perm (a :: l.erase a) := List.perm_cons_erase ha
  have hb2 : b ∈ l.erase a := (List.mem_erase_of_ne fun h => hne h.symm).mpr hb
  have hp2 : (l.erase a).Perm (b :: (l.erase a).erase b) := List.perm_cons_erase hb2
  have hsum1 : (l.map c).sum = c a + ((l.erase a).map c).sum := by
    rw [List.Perm.sum_eq (List.Perm.map c hp1)]
    simp
  have hsum2 : ((l.erase a).map c).sum = c b + (((l.erase a).erase b).map c).sum := by
    rw [List.Perm.sum_eq (List.Perm.map c hp2)]
    simp
  have hlen : ((l.erase a).erase b).length = l.length - 1 - 1 := by
    rw [List.length_erase_of_mem hb2, List.length_erase_of_mem ha]
  have hge : ((l.erase a).erase b).length ≤ (((l.erase a).erase b).map c).sum :=
    length_le_sum_map c _
      (fun t ht => h1 t (List.mem_of_mem_erase (List.mem_of_mem_erase ht)))
  have hlen2 : 2 ≤ l.length := by
    have hpl : (a :: l.erase a).length = l.length := hp1.length_eq.symm
    rw [List.length_cons] at hpl
    have hpos : 0 < (l.erase a).length := List.length_pos.mpr (List.ne_nil_of_mem hb2)
    omega
  omega

lemma all_of_filter_length_eq (p : TileKind → Bool) :
    ∀ l : List TileKind, (l.filter p).length = l.length → ∀ t ∈ l, p t = true := by
  intro l
  induction l with
  | nil => simp
  | cons h rest ih =>
    intro hl t ht
    rw [List.filter_cons] at hl
    by_cases hp : p h
    · rw [if_pos hp, List.length_cons, List.length_cons] at hl
      rcases List.mem_cons.mp ht with he | hm
      · subst he; exact hp
      · exact ih (by omega) t hm
    · rw [if_neg hp] at hl
      have := List.length_filter_le p rest
      rw [List.length_cons] at hl
      omega

lemma termSum_le_total (c : HandCount) : (terminalKinds.map c).sum ≤ total c := by
  have hnod : terminalKinds.Nodup := by decide
  have he : terminalKinds.toFinset.sum c = (terminalKinds.map c).sum :=
    List.sum_toFinset c hnod
  rw [← he]
  exact Finset.sum_le_sum_of_subset (Finset.subset_univ _)

lemma count_add_termSum_le_total (c : HandCount) (t : TileKind) (ht : t ∉ terminalKinds) :
    c t + (terminalKinds.map c).sum ≤ total c := by
  have hnod : terminalKinds.Nodup := by decide
  have he : terminalKinds.toFinset.sum c = (terminalKinds.map c).sum :=
    List.sum_toFinset c hnod
  have htf : t ∉ terminalKinds.toFinset := fun hmem => ht (List.mem_toFinset.mp hmem)
  have hins : (insert t terminalKinds.toFinset).sum c =
      c t + terminalKinds.toFinset.sum c := Finset.sum_insert htf
  have hle : (insert t terminalKinds.toFinset).sum c ≤ total c :=
    Finset.sum_le_sum_of_subset (Finset.subset_univ _)
  omega

lemma isKokushi_iff (c : HandCount) (h14 : total c = 14) :
    isKokushi c = true ↔ ThirteenOrphansShape c := by
  unfold isKokushi
  rw [kokushiLoop_iff]
  have hlen13 : terminalKinds.length = 13 := rfl
  constructor
  · rintro ⟨hle, hpres, htwos⟩
    simp only [Bool.false_eq_true, if_false] at htwos
    have hall1 : ∀ t ∈ terminalKinds, 1 ≤ c t := by
      intro t ht
      have := all_of_filter_length_eq (fun s => 1 ≤ c s) terminalKinds
        (by rw [hlen13]; omega) t ht
      simpa using this
    refine ⟨hall1, htwos, ?_⟩
    intro t ht
    have hsum : (terminalKinds.map c).sum = 14 := by
      rw [sum_map_eq_length_add_twos c terminalKinds (fun s hs => ⟨hall1 s hs, hle s hs⟩),
        hlen13, htwos]
    have := count_add_termSum_le_total c t ht
    omega
  · rintro ⟨hall1, htwos, hout⟩
    have hle : ∀ t ∈ terminalKinds, c t ≤ 2 := by
      intro s hs
      by_contra hgt
      push_neg at hgt
      have h2ex : ∃ b ∈ terminalKinds, c b = 2 := by
        have hne : terminalKinds.filter (fun t => c t = 2) ≠ [] := by
          intro he2
          rw [he2] at htwos
          simp at htwos
        obtain ⟨b, hbmem⟩ := List.exists_mem_of_ne_nil _ hne
        have := List.mem_filter.mp hbmem
        exact ⟨b, this.1, by simpa using this.2⟩
      obtain ⟨b, hbm, hb2⟩ := h2ex
      have hsne : s ≠ b := by
        intro he2
        rw [he2, hb2] at hgt
        omega
      have hbound := sum_map_ge_two c terminalKinds s b hs hbm hsne hall1
      have hts := termSum_le_total c
      rw [hlen13] at hbound
      omega
    refine ⟨hle, ?_, ?_⟩
    · have hfe : terminalKinds.filter (fun t => 1 ≤ c t) = terminalKinds :=
        List.filter_eq_self.mpr (fun t ht => by simpa using hall1 t ht)
      rw [hfe, hlen13]
    · simpa using htwos

/-- C1: for every 14-tile count, `isCompleteHand` holds exactly when the
count matches one of the three archetypes of the specification: seven
pairs, thirteen orphans, or one pair plus four melds (each meld a triplet
or a suited run of three consecutive ranks). -/
theorem isCompleteHand_iff_winning_shapes (c : HandCount) (h14 : total c = 14) :
    isCompleteHand c = true ↔
      SevenPairsShape c ∨ ThirteenOrphansShape c ∨ StandardShape c := by
  unfold isCompleteHand
  rw [if_neg (by omega : ¬ total c ≠ 14)]
  by_cases h1 :
      (supportSize c == 7 && (List.finRange 34).all fun t => c t == 0 || c t == 2) = true
  · rw [if_pos h1]
    constructor
    · intro
      exact Or.inl ((sevenPairsCheck_iff c).mp h1)
    · intro
      rfl
  · rw [if_neg h1]
    by_cases h2 : isKokushi c = true
    · rw [if_pos h2]
      constructor
      · intro
        exact Or.inr (Or.inl ((isKokushi_iff c h14).mp h2))
      · intro
        rfl
    · rw [if_neg h2]
      rw [standardAny_iff]
      constructor
      · exact fun h => Or.inr (Or.inr h)
      · rintro (hs | ho | hst)
        · exact absurd ((sevenPairsCheck_iff c).mpr hs) h1
        · exact absurd ((isKokushi_iff c h14).mpr ho) h2
        · exact hst


/-! ### Non-negativity and the zero-shanten value of complete hands -/

lemma chitoiLoop_nonneg (c : HandCount) :
    ∀ (l : List TileKind) (p s : Nat), 0 ≤ chitoiLoop c l p s := by
  intro l
  induction l with
  | nil =>
    intro p s
    exact le_max_left 0 _
  | cons t rest ih =>
    intro p s
    rw [chitoiLoop]
    by_cases h : 4 ≤ c t
    · rw [if_pos h]
      norm_num
    · rw [if_neg h]
      exact ih _ _

lemma calculateChitoitsuShanten_nonneg (c : HandCount) :
    0 ≤ calculateChitoitsuShanten c :=
  chitoiLoop_nonneg c _ 0 0

lemma calculateKokushiShanten_nonneg (c : HandCount) :
    0 ≤ calculateKokushiShanten c :=
  le_max_left 0 _

lemma calculateShanten_nonneg (c : HandCount) : 0 ≤ calculateShanten c := by
  unfold calculateShanten
  have h1 := calculateKokushiShanten_nonneg c
  have h2 := calculateChitoitsuShanten_nonneg c
  have h3 : (0 : Int) ≤ (calculateStandardShanten c : Int) := Int.natCast_nonneg _
  omega

lemma standardFold_le_init (c : HandCount) :
    ∀ (l : List TileKind) (a : Nat),
      l.foldl
        (fun acc t =>
          if 2 ≤ c t then min acc (calculateMeldsAndPairs (decPair c t) 0 1) else acc) a ≤ a := by
  intro l
  induction l with
  | nil =>
    intro a
    exact Nat.le_refl a
  | cons t rest ih =>
    intro a
    rw [List.foldl_cons]
    by_cases h : 2 ≤ c t
    · rw [if_pos h]
      exact Nat.le_trans (ih _) (Nat.min_le_left _ _)
    · rw [if_neg h]
      exact ih a

lemma standardFold_le_elem (c : HandCount) :
    ∀ (l : List TileKind) (a : Nat) (t : TileKind), t ∈ l → 2 ≤ c t →
      l.foldl
        (fun acc t =>
          if 2 ≤ c t then min acc (calculateMeldsAndPairs (decPair c t) 0 1) else acc) a ≤
        calculateMeldsAndPairs (decPair c t) 0 1 := by
  intro l
  induction l with
  | nil =>
    intro a t ht
    cases ht
  | cons hd rest ih =>
    intro a t ht h2
    rw [List.foldl_cons]
    rcases List.mem_cons.mp ht with he | hm
    · subst he
      rw [if_pos h2]
      exact Nat.le_trans (standardFold_le_init c rest _) (Nat.min_le_right _ _)
    · by_cases hh : 2 ≤ c hd
      · rw [if_pos hh]
        exact ih _ t hm h2
      · rw [if_neg hh]
        exact ih _ t hm h2

lemma calculateStandardShanten_zero_of_shape (c : HandCount) (h : StandardShape c) :
    calculateStandardShanten c = 0 := by
  have hany := (standardAny_iff c).mpr h
  rw [List.any_eq_true] at hany
  obtain ⟨t, -, hbt⟩ := hany
  rw [Bool.and_eq_true, decide_eq_true_eq] at hbt
  obtain ⟨h2, hcfm⟩ := hbt
  have hcm : CanMelds (decPair c t) 4 := (canFormMelds_zero_iff _).mp hcfm
  have hle := cmpF_le_of_canMelds 4 (total (decPair c t)) (decPair c t) 0 1
    (Nat.le_refl _) hcm
  have hz : calculateMeldsAndPairs (decPair c t) 0 1 = 0 := by
    unfold calculateMeldsAndPairs
    omega
  have := standardFold_le_elem c (List.finRange 34)
    (min 8 (calculateMeldsAndPairs c 0 0)) t (List.mem_finRange t) h2
  unfold calculateStandardShanten
  omega

lemma exists_pair_of_twos_one (c : HandCount)
    (h : (terminalKinds.filter (fun t => c t = 2)).length = 1) :
    ∃ b ∈ terminalKinds, c b = 2 := by
  have hne : terminalKinds.filter (fun t => c t = 2) ≠ [] := by
    intro he
    rw [he] at h
    simp at h
  obtain ⟨b, hbmem⟩ := List.exists_mem_of_ne_nil _ hne
  have := List.mem_filter.mp hbmem
  exact ⟨b, this.1, by simpa using this.2⟩

lemma calculateKokushiShanten_zero_of_shape (c : HandCount) (h : ThirteenOrphansShape c) :
    calculateKokushiShanten c = 0 := by
  obtain ⟨hall1, htwos, hout⟩ := h
  have hfe : terminalKinds.filter (fun t => 1 ≤ c t) = terminalKinds :=
    List.filter_eq_self.mpr (fun t ht => by simpa using hall1 t ht)
  have hpair : terminalKinds.any (fun t => 2 ≤ c t) = true := by
    rw [List.any_eq_true]
    obtain ⟨b, hbm, hb2⟩ := exists_pair_of_twos_one c htwos
    exact ⟨b, hbm, by simp [hb2]⟩
  unfold calculateKokushiShanten
  rw [hfe, hpair]
  decide

lemma calculateChitoitsuShanten_zero_of_shape (c : HandCount) (h : SevenPairsShape c) :
    calculateChitoitsuShanten c = 0 := by
  have hb := (sevenPairsCheck_iff c).mpr h
  rw [Bool.and_eq_true, List.all_eq_true] at hb
  obtain ⟨h7, hall⟩ := hb
  have h7n : supportSize c = 7 := by simpa using h7
  have h02 : ∀ t : TileKind, c t = 0 ∨ c t = 2 := fun t => by
    have := hall t (List.mem_finRange t)
    simpa using this
  have h4 : ∀ t : TileKind, c t < 4 := fun t => by rcases h02 t with h | h <;> omega
  unfold calculateChitoitsuShanten
  rw [chitoiLoop_eq_formula c _ 0 0 (fun t _ => h4 t)]
  have hpairs : ((List.finRange 34).filter (fun t => 2 ≤ c t)).length = 7 := by
    have he : (List.finRange 34).filter (fun t => 2 ≤ c t) =
        (List.finRange 34).filter (fun t => c t != 0) := by
      apply List.filter_congr
      intro t _
      rcases h02 t with h | h <;> simp [h]
    rw [he]
    exact h7n
  have hsingles : ((List.finRange 34).filter (fun t => c t = 1)).length = 0 := by
    have : (List.finRange 34).filter (fun t => c t = 1) = [] := by
      rw [List.filter_eq_nil_iff]
      intro t _
      rcases h02 t with h | h <;> simp [h]
    rw [this]
    rfl
  rw [Nat.zero_add, Nat.zero_add, hpairs, hsingles]
  decide

lemma total_eq_14_of_complete (c : HandCount) (h : isCompleteHand c = true) :
    total c = 14 := by
  by_contra hne
  unfold isCompleteHand at h
  rw [if_pos hne] at h
  cases h

lemma calculateShanten_zero_of_complete (c : HandCount) (h : isCompleteHand c = true) :
    calculateShanten c = 0 := by
  have h14 := total_eq_14_of_complete c h
  have hshapes := (isCompleteHand_iff_winning_shapes c h14).mp h
  have hk := calculateKokushiShanten_nonneg c
  have hc := calculateChitoitsuShanten_nonneg c
  have hs : (0 : Int) ≤ (calculateStandardShanten c : Int) := Int.natCast_nonneg _
  unfold calculateShanten
  rcases hshapes with h7 | ho | hst
  · have := calculateChitoitsuShanten_zero_of_shape c h7
    omega
  · have := calculateKokushiShanten_zero_of_shape c ho
    omega
  · have := calculateStandardShanten_zero_of_shape c hst
    omega

/-! ### The calculateUkeire loop as a filter over the 34 kinds -/

lemma ukeireStep_eq (hand : List TileKind) (c : HandCount) (r : UkeireResult) (t : TileKind) :
    ukeireStep hand c r t =
      if ukeireGood hand c t = true then
        { total := r.total + countAvailableTiles t hand
          tiles := fun s => if s = t then countAvailableTiles t hand else r.tiles s
          waits := r.waits ++ [t] }
      else r := by
  unfold ukeireStep ukeireGood
  by_cases h1 : 0 < calculateTileImprovement c t
  · by_cases h2 : 0 < countAvailableTiles t hand
    · simp [h1, h2]
    · simp [h1, h2]
  · simp [h1]

lemma ukeire_foldl_waits (hand : List TileKind) (c : HandCount) :
    ∀ (l : List TileKind) (r : UkeireResult),
      (l.foldl (ukeireStep hand c) r).waits = r.waits ++ l.filter (ukeireGood hand c) := by
  intro l
  induction l with
  | nil =>
    intro r
    simp
  | cons t rest ih =>
    intro r
    rw [List.foldl_cons, ih, ukeireStep_eq, List.filter_cons]
    by_cases h : ukeireGood hand c t = true
    · rw [if_pos h, if_pos h]
      simp
    · rw [if_neg h, if_neg h]

lemma ukeire_foldl_total (hand : List TileKind) (c : HandCount) :
    ∀ (l : List TileKind) (r : UkeireResult),
      (l.foldl (ukeireStep hand c) r).total =
        r.total +
          ((l.filter (ukeireGood hand c)).map (fun t => countAvailableTiles t hand)).sum := by
  intro l
  induction l with
  | nil =>
    intro r
    simp
  | cons t rest ih =>
    intro r
    rw [List.foldl_cons, ih, ukeireStep_eq, List.filter_cons]
    by_cases h : ukeireGood hand c t = true
    · rw [if_pos h, if_pos h]
      simp
      omega
    · rw [if_neg h, if_neg h]

lemma calculateUkeire_waits_eq (hand : List TileKind) :
    (calculateUkeire hand).waits =
      (List.finRange 34).filter (ukeireGood hand (getTileCount hand)) := by
  unfold calculateUkeire
  rw [ukeire_foldl_waits]
  rfl

lemma calculateUkeire_total_eq (hand : List TileKind) :
    (calculateUkeire hand).total =
      (((List.finRange 34).filter (ukeireGood hand (getTileCount hand))).map
        (fun t => countAvailableTiles t hand)).sum := by
  unfold calculateUkeire
  rw [ukeire_foldl_total]
  simp

/-! ### Claim theorems -/

/-- C4: a kind is in `findWaits` exactly when adding one copy of it makes
`isCompleteHand` true; only the 34 kinds are considered (the type of the
list elements), and the input count is not modified (the embedding is a
pure function of it). -/
theorem mem_findWaits_iff (c : HandCount) (t : TileKind) :
    t ∈ findWaits c ↔ isCompleteHand (addTile c t) = true := by
  unfold findWaits
  constructor
  · intro h
    exact (List.mem_filter.mp h).2
  · intro h
    exact List.mem_filter.mpr ⟨List.mem_finRange t, h⟩

/-- C10: on any count whose values do not sum to 14 — in particular every
13-tile count and the empty count — `isCompleteHand` answers false (the
function is total, so no error is possible). -/
theorem isCompleteHand_false_of_total_ne (c : HandCount) (h : total c ≠ 14) :
    isCompleteHand c = false := by
  unfold isCompleteHand
  rw [if_pos h]

/-- Witness for C10 at the empty count. -/
theorem isCompleteHand_false_of_total_ne_instance :
    isCompleteHand emptyCount = false :=
  isCompleteHand_false_of_total_ne emptyCount (by decide)

/-- Witness for C1 at the seven-pairs fixture hand. -/
theorem isCompleteHand_iff_winning_shapes_instance :
    isCompleteHand (getTileCount sevenPairs14) = true ↔
      SevenPairsShape (getTileCount sevenPairs14) ∨
        ThirteenOrphansShape (getTileCount sevenPairs14) ∨
        StandardShape (getTileCount sevenPairs14) :=
  isCompleteHand_iff_winning_shapes (getTileCount sevenPairs14) (by decide)

/-- C5: with no kind at count 4 or more, `calculateChitoitsuShanten` is the
claimed clamped formula; any count holding 4 copies of a kind yields the
sentinel 99, which is worse than the supremum real shanten 8. -/
theorem calculateChitoitsuShanten_spec (c : HandCount) :
    ((∀ t, c t < 4) → calculateChitoitsuShanten c = chitoiClaimFormula c) ∧
      (total c = 13 → (∃ t, 4 ≤ c t) →
        calculateChitoitsuShanten c = 99 ∧ (8 : Int) < 99) := by
  constructor
  · intro h4
    unfold calculateChitoitsuShanten chitoiClaimFormula
    rw [chitoiLoop_eq_formula c _ 0 0 (fun t _ => h4 t)]
    rw [Nat.zero_add, Nat.zero_add]
  · rintro h13 ⟨t, ht⟩
    exact ⟨chitoiLoop_quad c _ 0 0 t (List.mem_finRange t) ht, by norm_num⟩

/-- Witness for C5: the quad-free triplets hand follows the formula, and
the hand holding four 1z hits the sentinel. -/
theorem calculateChitoitsuShanten_spec_instance :
    calculateChitoitsuShanten (getTileCount w7hand) =
        chitoiClaimFormula (getTileCount w7hand) ∧
      calculateChitoitsuShanten (getTileCount hand4z) = 99 := by
  constructor
  · exact (calculateChitoitsuShanten_spec (getTileCount w7hand)).1 (by decide)
  · exact ((calculateChitoitsuShanten_spec (getTileCount hand4z)).2 (by decide)
      ⟨z1, by decide⟩).1

/-- C6 counterexample: on the count holding exactly a 1z pair the code
returns 11 while the claimed formula (subtract 1 when no pair exists)
gives 12. -/
theorem kokushi_claim_formula_fails :
    calculateKokushiShanten kokushiPairOnly ≠ kokushiClaimFormula kokushiPairOnly := by
  decide

/-- C6 amended: `calculateKokushiShanten` equals the clamped formula that
subtracts 1 exactly when a terminal/honor pair is present. -/
theorem calculateKokushiShanten_pair_adjusted (c : HandCount) :
    calculateKokushiShanten c = kokushiAmendedFormula c := by
  simp only [calculateKokushiShanten, kokushiAmendedFormula]
  by_cases hp : (terminalKinds.any fun t => decide (2 ≤ c t)) = true
  · rw [if_pos hp, if_pos hp]
  · rw [if_neg hp, if_neg hp]
    omega

/-- C2: failing input for the tenpai round-trip. Adding 5z to the four
honor triplets hand completes it, yet `calculateShanten` of the 13-tile
count is 2, not 0. -/
theorem tenpai_hand_with_nonzero_shanten :
    isCompleteHand (addTile (getTileCount w7hand) z5) = true ∧
      total (getTileCount w7hand) = 13 ∧
      calculateShanten (getTileCount w7hand) = 2 :=
  ⟨by decide, by decide, by decide⟩

/-- C3: on the specification scenario hand 1m2m3m4m5m6m7p8p9p2s3s4s5z the
waits are exactly 5z as claimed, but `calculateShanten` returns 2, not the
claimed 0. -/
theorem reference_tanki_hand_eval :
    findWaits (getTileCount exHand13) = [z5] ∧
      calculateShanten (getTileCount exHand13) = 2 :=
  ⟨by decide, by decide⟩

/-- C7 counterexample: for the hand with four 1z and 1m..9m, the kind 1z
is a structural wait with zero remaining availability, yet it does not
appear in the waits list of `calculateUkeire`. -/
theorem ukeire_zero_availability_wait_dropped :
    isCompleteHand (addTile (getTileCount hand4z) z1) = true ∧
      countAvailableTiles z1 hand4z = 0 ∧
      z1 ∉ (calculateUkeire hand4z).waits := by
  refine ⟨by decide, by decide, ?_⟩
  rw [calculateUkeire_waits_eq]
  intro hmem
  have hg := (List.mem_filter.mp hmem).2
  unfold ukeireGood at hg
  rw [Bool.and_eq_true] at hg
  have h2 := hg.2
  rw [decide_eq_true_eq] at h2
  have h0 : countAvailableTiles z1 hand4z = 0 := by decide
  omega

/-- C7 amended: the ukeire total is the sum of the availabilities of the
listed waits; a kind with zero availability never appears in the list (so
it contributes nothing); and every structural wait with positive
availability does appear provided the current shanten is positive. -/
theorem calculateUkeire_waits_spec (hand : List TileKind) (t : TileKind)
    (_h13 : hand.length = 13) :
    ((calculateUkeire hand).total =
        (((calculateUkeire hand).waits).map (fun s => countAvailableTiles s hand)).sum) ∧
      (countAvailableTiles t hand = 0 → t ∉ (calculateUkeire hand).waits) ∧
      (0 < calculateShanten (getTileCount hand) →
        isCompleteHand (addTile (getTileCount hand) t) = true →
        0 < countAvailableTiles t hand →
        t ∈ (calculateUkeire hand).waits) := by
  refine ⟨?_, ?_, ?_⟩
  · rw [calculateUkeire_total_eq, calculateUkeire_waits_eq]
  · intro h0 hmem
    rw [calculateUkeire_waits_eq] at hmem
    have hg := (List.mem_filter.mp hmem).2
    unfold ukeireGood at hg
    rw [Bool.and_eq_true] at hg
    have h2 := hg.2
    rw [decide_eq_true_eq] at h2
    omega
  · intro hsh hcomp hav
    rw [calculateUkeire_waits_eq]
    refine List.mem_filter.mpr ⟨List.mem_finRange t, ?_⟩
    unfold ukeireGood
    rw [Bool.and_eq_true]
    refine ⟨?_, decide_eq_true hav⟩
    rw [decide_eq_true_eq]
    unfold calculateTileImprovement
    rw [calculateShanten_zero_of_complete _ hcomp]
    omega

/-- Witness for C7 at the four honor triplets hand waiting on 5z. -/
theorem calculateUkeire_waits_spec_instance :
    z5 ∈ (calculateUkeire w7hand).waits :=
  (calculateUkeire_waits_spec w7hand z5 (by decide)).2.2 (by decide) (by decide) (by decide)

/-- C8 counterexample: the empty count yields shanten 5, not the claimed
supremum 8. -/
theorem calculateShanten_empty_ne_eight :
    calculateShanten emptyCount ≠ 8 := by
  decide

/-- C8 amended: `calculateShanten` is a total function returning an
integer on every count, and the empty count yields 5 (four missing melds
plus one missing pair), not the supremum 8. -/
theorem calculateShanten_total_and_empty :
    (∀ c : HandCount, ∃ n : Int, calculateShanten c = n) ∧
      calculateShanten emptyCount = 5 :=
  ⟨fun c => ⟨calculateShanten c, rfl⟩, by decide⟩

/-- C9 counterexample: on the malformed single-tile hand 1m both
`calculateShanten` and `calculateUkeire` silently return numeric results
(6, and an ukeire total of 3) instead of failing. -/
theorem malformed_inputs_return_values :
    calculateShanten (getTileCount [m1]) = 6 ∧ (calculateUkeire [m1]).total = 3 :=
  ⟨by decide, by decide⟩

/-- C9 amended: the operations perform no precondition checks: they are
total functions that return values on every input, including a count with
five copies of one kind. -/
theorem no_input_validation :
    (∀ c : HandCount, ∃ n : Int, calculateShanten c = n) ∧
      (∀ hand : List TileKind, ∃ u : UkeireResult, calculateUkeire hand = u) ∧
      calculateShanten quadCount = 3 :=
  ⟨fun c => ⟨calculateShanten c, rfl⟩, fun hand => ⟨calculateUkeire hand, rfl⟩, by decide⟩

end MahjongEngine
